import Mathlib

/-!
Verification of the CellLabCTS continuous-time stochastic cellular-automaton
engine of landlab (`landlab/ca`): the event scheduler (priority queue), the
link-state classification, the transition table, and the main run loop.

The engine implementation (`landlab/ca/celllab_cts.py`, the `PriorityQueue`
of `landlab/ca/cfuncs`, and the raster/hex specializations) is not part of
the source tree available here; only its unit tests
(`landlab/ca/tests/test_celllab_cts.py`) are.  The definitions below are
therefore modelled from the specification of those components, and every
concrete expectation of the unit tests that is expressible in the model is
checked against it.

Simulated times and transition rates are floating-point numbers in the
code; the model uses exact arithmetic instead.  The priority queue is
generic over any linearly ordered time type; the engine uses integer times
and rates (only order, addition and subtraction are ever exercised).  The
stochastic draws (exponential waiting times and the weighted choice among
competing transitions) are supplied by an explicit stream of draws, making
the engine a deterministic function of its configuration and that stream.
-/

namespace CellLabCTS

/-- Ordering key of scheduler entries: lexicographic on
(scheduled time, insertion sequence number); the payload never
participates in the comparison. -/
def EntryLE {τ α : Type} [LinearOrder τ] (e f : τ × ℕ × α) : Prop :=
  e.1 < f.1 ∨ (e.1 = f.1 ∧ e.2.1 ≤ f.2.1)

instance {τ α : Type} [LinearOrder τ] (e f : τ × ℕ × α) : Decidable (EntryLE e f) :=
  inferInstanceAs (Decidable (e.1 < f.1 ∨ (e.1 = f.1 ∧ e.2.1 ≤ f.2.1)))

/-- Modelled from the spec: the `PriorityQueue` of `landlab/ca/cfuncs`
(not under `src/`): a min-queue of (time, sequence_number, payload)
triples, where `counter` is the monotonically increasing sequence number
assigned at push time. -/
structure PriorityQueue (τ : Type) (α : Type) where
  queue : List (τ × ℕ × α)
  counter : ℕ
deriving DecidableEq, Repr

/-- Modelled from the spec: `push(payload, time)` assigns the next sequence
number and inserts the (time, seq, payload) triple. -/
def PriorityQueue.push {τ α : Type} (pq : PriorityQueue τ α) (payload : α) (time : τ) :
    PriorityQueue τ α :=
  ⟨pq.queue ++ [(time, pq.counter, payload)], pq.counter + 1⟩

/-- Remove and return the entry that is minimal for `EntryLE`, together
with the remaining entries.  Returns `none` on the empty list (the code
raises `EmptyQueueError` there). -/
def extractMin {τ α : Type} [LinearOrder τ] :
    List (τ × ℕ × α) → Option ((τ × ℕ × α) × List (τ × ℕ × α))
  | [] => none
  | e :: rest =>
    match extractMin rest with
    | none => some (e, [])
    | some (m, rest2) => if EntryLE e m then some (e, rest) else some (m, e :: rest2)

/-- Modelled from the spec: `pop()` removes and returns the minimum by
(time, seq); fails (here: `none`) if the queue is empty. -/
def PriorityQueue.pop {τ α : Type} [LinearOrder τ] (pq : PriorityQueue τ α) :
    Option ((τ × ℕ × α) × PriorityQueue τ α) :=
  match extractMin pq.queue with
  | none => none
  | some (m, rest) => some (m, ⟨rest, pq.counter⟩)

/-- Exhaustively pop entries; the first argument is fuel bounding the
number of pops (the queue length suffices). -/
def popAllAux {τ α : Type} [LinearOrder τ] : ℕ → List (τ × ℕ × α) → List (τ × ℕ × α)
  | 0, _ => []
  | fuel + 1, l =>
    match extractMin l with
    | none => []
    | some (m, rest) => m :: popAllAux fuel rest

/-- Pop every entry of the queue, in pop order. -/
def PriorityQueue.popAll {τ α : Type} [LinearOrder τ] (pq : PriorityQueue τ α) :
    List (τ × ℕ × α) :=
  popAllAux pq.queue.length pq.queue

/-- Push a whole list of (payload, time) pairs, in order, onto an empty
queue. -/
def pushAll {τ α : Type} (ps : List (α × τ)) : PriorityQueue τ α :=
  ps.foldl (fun pq p => pq.push p.1 p.2) ⟨[], 0⟩

/-- The (time, insertion_index, payload) triples that a sequence of pushes
creates, with insertion indices counted from `c`. -/
def enumQ {τ α : Type} : ℕ → List (α × τ) → List (τ × ℕ × α)
  | _, [] => []
  | c, (a, t) :: ps => (t, c, a) :: enumQ (c + 1) ps

/-- Modelled from the spec: the four grid/topology specializations of the
CTS engine (`RasterCTS`, `OrientedRasterCTS`, `HexCTS`, `OrientedHexCTS`;
their modules are not under `src/`). -/
inductive GridKind where
  | raster
  | orientedRaster
  | hex
  | orientedHex
deriving DecidableEq, Repr

/-- Modelled from the spec: the number of link-orientation codes of each
grid specialization (non-oriented grids use the single code 0; an oriented
raster has 2 codes, an oriented hex grid 3). -/
def GridKind.num_orientations : GridKind → ℕ
  | .raster => 1
  | .orientedRaster => 2
  | .hex => 1
  | .orientedHex => 3

/-- Modelled from the spec: a `Transition` — from-state triple, to-state
triple, strictly positive rate, and the property-swap flag.  (The optional
name and callback of the code play no role in the claims and are
omitted.) -/
structure Transition where
  from_state : ℕ × ℕ × ℕ
  to_state : ℕ × ℕ × ℕ
  rate : ℤ
  swap_properties : Bool
deriving DecidableEq, Repr

/-- Modelled from the spec: the payload of a scheduled event — the link
identifier, the target link-state index, and the property-swap flag; the
scheduled time is the queue key. -/
structure Event where
  link : ℕ
  xn_to : ℕ
  propswap : Bool
deriving DecidableEq, Repr

/-- Modelled from the spec: the immutable construction-time inputs of an
engine — node-state count, grid specialization, per-link endpoint pairs
(tail, head), per-link orientation codes, and the transition list. -/
structure EngineConfig where
  num_node_states : ℕ
  kind : GridKind
  links : List (ℕ × ℕ)
  link_orientation : List ℕ
  transitions : List Transition
deriving DecidableEq, Repr

/-- Number of orientation codes of an engine's grid specialization. -/
def EngineConfig.num_orientations (cfg : EngineConfig) : ℕ :=
  cfg.kind.num_orientations

/-- Row of the link-state enumeration: the pairs (i, j, o) for one fixed
first state i and orientation o, with j running over `0 .. ns-1`. -/
def states_row (i o : ℕ) : ℕ → List (ℕ × ℕ × ℕ)
  | 0 => []
  | j + 1 => states_row i o j ++ [(i, j, o)]

/-- Block of the link-state enumeration for one orientation code: all
(i, j, o) with i outer and j inner running over the node states. -/
def states_block (o ns : ℕ) : ℕ → List (ℕ × ℕ × ℕ)
  | 0 => []
  | i + 1 => states_block o ns i ++ states_row i o ns

/-- Modelled from the spec: the dense link-state enumeration built at
construction — all (node_state_tail, node_state_head, orientation)
triples, with the orientation code as the outermost loop.  Its positions
are the link-state indices; as a list it is the code's `node_pair`
(`cell_pair`) inverse table, and position lookup is the code's
`link_state_dict`. -/
def link_state_list (ns : ℕ) : ℕ → List (ℕ × ℕ × ℕ)
  | 0 => []
  | o + 1 => link_state_list ns o ++ states_block o ns ns

/-- Inverse table from link-state index to state triple. -/
def EngineConfig.node_pair (cfg : EngineConfig) : List (ℕ × ℕ × ℕ) :=
  link_state_list cfg.num_node_states cfg.num_orientations

/-- Modelled from the spec: `num_link_states`, the size of the link-state
enumeration. -/
def EngineConfig.num_link_states (cfg : EngineConfig) : ℕ :=
  cfg.node_pair.length

/-- Modelled from the spec: the link-state index of a state triple
(i, j, o), `none` when the triple is not a valid combination of known node
states and orientation codes.  On valid triples it is the position of the
triple in `link_state_list`. -/
def link_state_index (ns norient : ℕ) (t : ℕ × ℕ × ℕ) : Option ℕ :=
  if t.1 < ns ∧ t.2.1 < ns ∧ t.2.2 < norient then
    some (t.2.2 * ns ^ 2 + t.1 * ns + t.2.1)
  else none

/-- Modelled from the spec: the mutable state an engine owns — current
simulated time, per-node states, per-link next scheduled update time
(`none` is the "no event scheduled" sentinel), the event queue, the
property indirection and data arrays, the stream of remaining random
draws (waiting time, selection value), and the log of applied events
(time, link). -/
structure EngineState where
  current_time : ℤ
  node_state : List ℕ
  next_update : List (Option ℤ)
  queue : PriorityQueue ℤ Event
  propid : List ℕ
  prop_data : List ℤ
  stream : List (ℤ × ℤ)
  applied : List (ℤ × ℕ)
deriving DecidableEq, Repr

/-- Current link-state index of a link, computed from the endpoint node
states and the stored orientation code. -/
def link_state_of (cfg : EngineConfig) (st : EngineState) (l : ℕ) : ℕ :=
  let p := cfg.links.getD l (0, 0)
  let o := cfg.link_orientation.getD l 0
  (link_state_index cfg.num_node_states cfg.num_orientations
    (st.node_state.getD p.1 0, st.node_state.getD p.2 0, o)).getD 0

/-- Transitions whose from-state equals the given link state. -/
def active_transitions (cfg : EngineConfig) (ls : ℕ) : List Transition :=
  cfg.transitions.filter fun t =>
    link_state_index cfg.num_node_states cfg.num_orientations t.from_state == some ls

/-- Total departure rate of a set of competing transitions. -/
def total_rate (trns : List Transition) : ℤ :=
  (trns.map Transition.rate).sum

/-- Modelled from the spec: weighted discrete sampling among competing
transitions — walk the list subtracting rates from the selection draw; the
realized transition is chosen with probability proportional to its rate
when the draw is uniform on the total rate. -/
def weighted_choice : List Transition → ℤ → Option Transition
  | [], _ => none
  | [t], _ => some t
  | t :: t2 :: rest, x =>
    if x < t.rate then some t else weighted_choice (t2 :: rest) (x - t.rate)

/-- Modelled from the spec: (re)schedule the event of one link.  If no
transition departs from the link's current state (or the draw stream is
exhausted), the link is marked as having no scheduled event.  Otherwise
one (waiting time, selection) draw is consumed, the realized transition is
chosen by weighted sampling, and an event at
`current_time + waiting_time` is pushed and recorded in `next_update`. -/
def schedule_link (cfg : EngineConfig) (st : EngineState) (l : ℕ) : EngineState :=
  match active_transitions cfg (link_state_of cfg st l), st.stream with
  | [], _ => { st with next_update := st.next_update.set l none }
  | _ :: _, [] => { st with next_update := st.next_update.set l none }
  | t0 :: ts, (w, sel) :: rest =>
    let tr := (weighted_choice (t0 :: ts) sel).getD t0
    let tev := st.current_time + w
    let ev : Event :=
      { link := l,
        xn_to := (link_state_index cfg.num_node_states cfg.num_orientations tr.to_state).getD 0,
        propswap := tr.swap_properties }
    { st with stream := rest,
              next_update := st.next_update.set l (some tev),
              queue := st.queue.push ev tev }

/-- Links incident to either of the two given nodes — the links whose
events must be rederived after those nodes changed state. -/
def affected_links (cfg : EngineConfig) (a b : ℕ) : List ℕ :=
  (List.range cfg.links.length).filter fun l =>
    let p := cfg.links.getD l (0, 0)
    p.1 == a || p.2 == a || p.1 == b || p.2 == b

/-- Exchange the property-slot assignments of two nodes (the indirection
entries, not the underlying property data). -/
def swap_propids (pi : List ℕ) (a b : ℕ) : List ℕ :=
  (pi.set a (pi.getD b 0)).set b (pi.getD a 0)

/-- Modelled from the spec: apply a valid event — set `current_time` to
the event time, decode the target link state into the new (state_a,
state_b) pair, write the pair into the node-state array at the link's two
endpoints, exchange the endpoints' property slots when the propswap flag
is set, log the event, and reschedule every link incident to either
changed node. -/
def do_event (cfg : EngineConfig) (st : EngineState) (ev : Event) (t : ℤ) : EngineState :=
  let pr := cfg.node_pair.getD ev.xn_to (0, 0, 0)
  let p := cfg.links.getD ev.link (0, 0)
  let st1 : EngineState :=
    { st with
      current_time := t,
      node_state := (st.node_state.set p.1 pr.1).set p.2 pr.2.1,
      propid := if ev.propswap then swap_propids st.propid p.1 p.2 else st.propid,
      applied := st.applied ++ [(t, ev.link)] }
  (affected_links cfg p.1 p.2).foldl (schedule_link cfg) st1

/-- Termination measure of the run loop: every iteration pops one entry
and pushes at most as many entries as draws it consumes. -/
def fuel_measure (st : EngineState) : ℕ :=
  st.queue.queue.length + st.stream.length

/-- Modelled from the spec: the main run loop, with explicit fuel.  While
`current_time < run_until_time` and the queue is non-empty: look at the
earliest event; if it lies beyond the horizon, leave the queue unchanged
and stop with `current_time = run_until_time`; if its time differs from
`next_update` at its link, discard it silently; otherwise apply it and
reschedule the affected links. -/
def runFuel (cfg : EngineConfig) (T : ℤ) : ℕ → EngineState → EngineState
  | 0, st => st
  | fuel + 1, st =>
    if st.current_time < T then
      match st.queue.pop with
      | none => st
      | some ((t, _seq, ev), q2) =>
        if T < t then { st with current_time := T }
        else if st.next_update.getD ev.link none = some t then
          runFuel cfg T fuel (do_event cfg { st with queue := q2 } ev t)
        else
          runFuel cfg T fuel { st with queue := q2 }
    else st

/-- Modelled from the spec: `run(until_time)`.  `fuel_measure` strictly
decreases at every iteration of the loop, so it bounds the number of
iterations. -/
def run (cfg : EngineConfig) (T : ℤ) (st : EngineState) : EngineState :=
  runFuel cfg T (fuel_measure st) st

/-- Modelled from the spec: the state an engine starts from — time zero,
the supplied node states and property arrays, and an initial event
schedule derived for every link. -/
def init_state (cfg : EngineConfig) (node_state propid : List ℕ) (prop_data : List ℤ)
    (stream : List (ℤ × ℤ)) : EngineState :=
  (List.range cfg.links.length).foldl (schedule_link cfg)
    { current_time := 0,
      node_state := node_state,
      next_update := List.replicate cfg.links.length none,
      queue := ⟨[], 0⟩,
      propid := propid,
      prop_data := prop_data,
      stream := stream,
      applied := [] }

/-- Modelled from the spec: the error raised when construction is given an
invalid transition. -/
inductive ConfigurationError where
  | invalidTransition
deriving DecidableEq, Repr

/-- Modelled from the spec: the construction-time checks on one transition
— both state triples must resolve to valid link-state indices and the rate
must be strictly positive. -/
def valid_transition (cfg : EngineConfig) (t : Transition) : Bool :=
  (link_state_index cfg.num_node_states cfg.num_orientations t.from_state).isSome
    && (link_state_index cfg.num_node_states cfg.num_orientations t.to_state).isSome
    && decide (0 < t.rate)

/-- Modelled from the spec: engine construction — validate every supplied
transition, failing with `ConfigurationError` (creating no engine) if any
check fails, and otherwise build the initial engine state. -/
def create_engine (cfg : EngineConfig) (node_state propid : List ℕ) (prop_data : List ℤ)
    (stream : List (ℤ × ℤ)) : Except ConfigurationError EngineState :=
  if cfg.transitions.all (valid_transition cfg) then
    Except.ok (init_state cfg node_state propid prop_data stream)
  else
    Except.error ConfigurationError.invalidTransition

/-- The push sequence of the spec's priority-queue example (payload, time):
the times 2.2, 5.5, 0.11, 4.4, 1.1, 3.3 as exact rationals. -/
def psEx : List (ℕ × ℚ) :=
  [(2, Rat.mk' 11 5), (5, Rat.mk' 11 2), (0, Rat.mk' 11 100),
   (4, Rat.mk' 22 5), (1, Rat.mk' 11 10), (3, Rat.mk' 33 10)]

/-- The queue remaining after popping the minimum of `pushAll psEx`. -/
def pqExRest : PriorityQueue ℚ ℕ :=
  ⟨[(Rat.mk' 11 5, 0, 2), (Rat.mk' 11 2, 1, 5), (Rat.mk' 22 5, 3, 4),
    (Rat.mk' 11 10, 4, 1), (Rat.mk' 33 10, 5, 3)], 6⟩

/-- A small concrete engine: a 2-state three-node chain (links 0-1 and
1-2, both with orientation code 0) with the single transition
(1,0,0) -> (0,1,0) of the spec's scenario. -/
def cfgChain : EngineConfig :=
  { num_node_states := 2,
    kind := GridKind.raster,
    links := [(0, 1), (1, 2)],
    link_orientation := [0, 0],
    transitions :=
      [{ from_state := (1, 0, 0), to_state := (0, 1, 0), rate := 1,
         swap_properties := false }] }

/-- The chain engine started from node states (1,0,0) with one drawn
waiting time of 1, so a single event on link 0 is scheduled at time 1. -/
def stChain : EngineState :=
  init_state cfgChain [1, 0, 0] [0, 1, 2] [50, 0, 0] [(1, 0)]

/-- The chain engine with one drawn waiting time of 10: its only event is
scheduled at time 10, beyond the horizons used below. -/
def stBeyond : EngineState :=
  init_state cfgChain [1, 0, 0] [0, 1, 2] [50, 0, 0] [(10, 0)]

/-- An engine state holding a stale event: the queued event for link 0
carries time 1, but `next_update` for link 0 was overwritten to 2. -/
def stStale : EngineState :=
  { current_time := 0,
    node_state := [1, 0, 0],
    next_update := [some 2, none],
    queue := ⟨[(1, 0, { link := 0, xn_to := 1, propswap := false })], 1⟩,
    propid := [0, 1, 2],
    prop_data := [50, 0, 0],
    stream := [],
    applied := [] }

/-- The event scheduled on link 0 of the chain engine. -/
def evChain : Event :=
  { link := 0, xn_to := 1, propswap := false }

/-- A property-swapping event on link 0. -/
def evSwap : Event :=
  { link := 0, xn_to := 1, propswap := true }

theorem entryLE_refl {τ α : Type} [LinearOrder τ] (e : τ × ℕ × α) : EntryLE e e :=
  Or.inr ⟨rfl, le_refl _⟩

theorem entryLE_trans {τ α : Type} [LinearOrder τ] {a b c : τ × ℕ × α}
    (h1 : EntryLE a b) (h2 : EntryLE b c) : EntryLE a c := by
  rcases h1 with h1 | ⟨h1, h1b⟩ <;> rcases h2 with h2 | ⟨h2, h2b⟩
  · exact Or.inl (h1.trans h2)
  · exact Or.inl (h2 ▸ h1)
  · exact Or.inl (h1 ▸ h2)
  · exact Or.inr ⟨h1.trans h2, h1b.trans h2b⟩

theorem entryLE_total {τ α : Type} [LinearOrder τ] (a b : τ × ℕ × α) :
    EntryLE a b ∨ EntryLE b a := by
  rcases lt_trichotomy a.1 b.1 with h | h | h
  · exact Or.inl (Or.inl h)
  · rcases le_total a.2.1 b.2.1 with h2 | h2
    · exact Or.inl (Or.inr ⟨h, h2⟩)
    · exact Or.inr (Or.inr ⟨h.symm, h2⟩)
  · exact Or.inr (Or.inl h)

theorem extractMin_cons_isSome {τ α : Type} [LinearOrder τ] (e : τ × ℕ × α)
    (rest : List (τ × ℕ × α)) : ∃ m r, extractMin (e :: rest) = some (m, r) := by
  simp only [extractMin]
  rcases h : extractMin rest with _ | ⟨m, r2⟩
  · exact ⟨e, [], rfl⟩
  · by_cases hle : EntryLE e m
    · exact ⟨e, rest, by simp [hle]⟩
    · exact ⟨m, e :: r2, by simp [hle]⟩

theorem extractMin_eq_none {τ α : Type} [LinearOrder τ] (l : List (τ × ℕ × α)) :
    extractMin l = none ↔ l = [] := by
  cases l with
  | nil => simp [extractMin]
  | cons e rest =>
    obtain ⟨m, r, h⟩ := extractMin_cons_isSome e rest
    simp [h]

theorem extractMin_perm {τ α : Type} [LinearOrder τ] :
    ∀ (l : List (τ × ℕ × α)) m r, extractMin l = some (m, r) → l.Perm (m :: r) := by
  intro l
  induction l with
  | nil => intro m r h; simp [extractMin] at h
  | cons e rest ih =>
    intro m r h
    simp only [extractMin] at h
    rcases h2 : extractMin rest with _ | ⟨m2, r2⟩ <;> rw [h2] at h <;> dsimp only at h
    · obtain ⟨hm, hr⟩ : m = e ∧ r = [] := by cases h; exact ⟨rfl, rfl⟩
      have : rest = [] := (extractMin_eq_none rest).mp h2
      subst this
      rw [hm, hr]
    · by_cases hle : EntryLE e m2
      · rw [if_pos hle] at h
        obtain ⟨hm, hr⟩ : m = e ∧ r = rest := by cases h; exact ⟨rfl, rfl⟩
        rw [hm, hr]
      · rw [if_neg hle] at h
        obtain ⟨hm, hr⟩ : m = m2 ∧ r = e :: r2 := by cases h; exact ⟨rfl, rfl⟩
        rw [hm, hr]
        exact ((ih m2 r2 h2).cons e).trans (List.Perm.swap _ _ _)

theorem extractMin_min {τ α : Type} [LinearOrder τ] :
    ∀ (l : List (τ × ℕ × α)) m r, extractMin l = some (m, r) → ∀ x ∈ l, EntryLE m x := by
  intro l
  induction l with
  | nil => intro m r h; simp [extractMin] at h
  | cons e rest ih =>
    intro m r h x hx
    simp only [extractMin] at h
    rcases h2 : extractMin rest with _ | ⟨m2, r2⟩ <;> rw [h2] at h <;> dsimp only at h
    · obtain ⟨hm, hr⟩ : m = e ∧ r = [] := by cases h; exact ⟨rfl, rfl⟩
      have : rest = [] := (extractMin_eq_none rest).mp h2
      subst this
      rw [hm]
      rcases List.mem_cons.mp hx with rfl | hx
      · exact entryLE_refl _
      · cases hx
    · by_cases hle : EntryLE e m2
      · rw [if_pos hle] at h
        obtain ⟨hm, hr⟩ : m = e ∧ r = rest := by cases h; exact ⟨rfl, rfl⟩
        rw [hm]
        rcases List.mem_cons.mp hx with rfl | hx
        · exact entryLE_refl _
        · exact entryLE_trans hle (ih m2 r2 h2 x hx)
      · rw [if_neg hle] at h
        obtain ⟨hm, hr⟩ : m = m2 ∧ r = e :: r2 := by cases h; exact ⟨rfl, rfl⟩
        rw [hm]
        rcases List.mem_cons.mp hx with rfl | hx
        · rcases entryLE_total x m2 with h3 | h3
          · exact absurd h3 hle
          · exact h3
        · exact ih m2 r2 h2 x hx

theorem extractMin_length {τ α : Type} [LinearOrder τ] (l : List (τ × ℕ × α))
    (m : τ × ℕ × α) (r : List (τ × ℕ × α)) (h : extractMin l = some (m, r)) :
    l.length = r.length + 1 := by
  have := (extractMin_perm l m r h).length_eq
  simpa using this

theorem popAllAux_perm {τ α : Type} [LinearOrder τ] :
    ∀ (f : ℕ) (l : List (τ × ℕ × α)), l.length ≤ f → (popAllAux f l).Perm l := by
  intro f
  induction f with
  | zero =>
    intro l h
    have : l = [] := List.length_eq_zero.mp (Nat.le_zero.mp h)
    subst this
    simp [popAllAux]
  | succ f ih =>
    intro l h
    rcases h2 : extractMin l with _ | ⟨m, r⟩
    · have : l = [] := (extractMin_eq_none l).mp h2
      subst this
      simp [popAllAux, h2]
    · have hlen := extractMin_length l m r h2
      have hr : r.length ≤ f := by omega
      simp only [popAllAux]
      rw [h2]
      exact ((ih r hr).cons m).trans (extractMin_perm l m r h2).symm

theorem popAllAux_sorted {τ α : Type} [LinearOrder τ] :
    ∀ (f : ℕ) (l : List (τ × ℕ × α)), l.length ≤ f →
      List.Pairwise EntryLE (popAllAux f l) := by
  intro f
  induction f with
  | zero => intro l h; simp [popAllAux]
  | succ f ih =>
    intro l h
    rcases h2 : extractMin l with _ | ⟨m, r⟩
    · simp [popAllAux, h2]
    · have hlen := extractMin_length l m r h2
      have hr : r.length ≤ f := by omega
      simp only [popAllAux]
      rw [h2]
      refine List.Pairwise.cons ?_ (ih r hr)
      intro x hx
      have hxr : x ∈ r := (popAllAux_perm f r hr).mem_iff.mp hx
      have hxl : x ∈ l := (extractMin_perm l m r h2).mem_iff.mpr (List.mem_cons_of_mem m hxr)
      exact extractMin_min l m r h2 x hxl

theorem pushAll_foldl_queue {τ α : Type} :
    ∀ (ps : List (α × τ)) (q : List (τ × ℕ × α)) (c : ℕ),
      (ps.foldl (fun pq p => pq.push p.1 p.2) (⟨q, c⟩ : PriorityQueue τ α)).queue
        = q ++ enumQ c ps := by
  intro ps
  induction ps with
  | nil => intro q c; simp [enumQ]
  | cons p ps ih =>
    intro q c
    obtain ⟨a, t⟩ := p
    rw [List.foldl_cons]
    show (ps.foldl (fun pq p => pq.push p.1 p.2)
        (⟨q ++ [(t, c, a)], c + 1⟩ : PriorityQueue τ α)).queue = q ++ enumQ c ((a, t) :: ps)
    rw [ih]
    simp [enumQ]

theorem pushAll_queue {τ α : Type} (ps : List (α × τ)) :
    (pushAll ps).queue = enumQ 0 ps := by
  unfold pushAll
  rw [pushAll_foldl_queue]
  simp

/-- C1: a sequence of pushes followed by exhaustive pops yields the
entries in non-decreasing (time, insertion index) order — so times are
non-decreasing, and entries with equal times leave in push (FIFO) order,
never by payload content; the popped entries are exactly the
(time, insertion_index, payload) triples of the pushes; and every
successful pop returns an entry minimal among those in the queue. -/
theorem pq_pop_order_fifo {τ α : Type} [LinearOrder τ] (ps : List (α × τ)) :
    List.Pairwise EntryLE (pushAll ps).popAll
    ∧ ((pushAll ps).popAll).Perm (enumQ 0 ps)
    ∧ ∀ (pq : PriorityQueue τ α) (e : τ × ℕ × α) (rest : PriorityQueue τ α),
        pq.pop = some (e, rest) → ∀ x ∈ pq.queue, EntryLE e x := by
  refine ⟨popAllAux_sorted _ _ le_rfl, ?_, ?_⟩
  · have h := popAllAux_perm (τ := τ) (α := α) (pushAll ps).queue.length (pushAll ps).queue le_rfl
    unfold PriorityQueue.popAll
    rw [pushAll_queue] at h ⊢
    exact h
  · intro pq e rest h x hx
    unfold PriorityQueue.pop at h
    rcases h2 : extractMin pq.queue with _ | ⟨m, r⟩ <;> rw [h2] at h <;> dsimp only at h
    · cases h
    · obtain ⟨he, hrest⟩ : e = m ∧ rest = ⟨r, pq.counter⟩ := by cases h; exact ⟨rfl, rfl⟩
      rw [he]
      exact extractMin_min pq.queue m r h2 x hx

/-- C1 witness: the spec's concrete example — popping `pushAll psEx`
returns the entry with time 0.11, insertion index 2, payload 0, and that
entry is minimal (e.g. against the first-pushed entry with time 2.2). -/
theorem pq_pop_order_fifo_witness :
    (pushAll psEx).pop = some ((Rat.mk' 11 100, 2, 0), pqExRest)
    ∧ EntryLE (Rat.mk' 11 100, 2, (0 : ℕ)) (Rat.mk' 11 5, 0, 2) :=
  ⟨by decide,
   (pq_pop_order_fifo psEx).2.2 (pushAll psEx) (Rat.mk' 11 100, 2, 0) pqExRest
     (by decide) (Rat.mk' 11 5, 0, 2) (by decide)⟩

theorem states_row_length (i o : ℕ) : ∀ n, (states_row i o n).length = n := by
  intro n
  induction n with
  | zero => rfl
  | succ n ih => simp [states_row, ih]

theorem states_block_length (o ns : ℕ) : ∀ n, (states_block o ns n).length = n * ns := by
  intro n
  induction n with
  | zero => simp [states_block]
  | succ n ih =>
    simp [states_block, ih, states_row_length]
    ring

theorem link_state_list_length (ns : ℕ) : ∀ n, (link_state_list ns n).length = n * ns ^ 2 := by
  intro n
  induction n with
  | zero => simp [link_state_list]
  | succ n ih =>
    simp [link_state_list, ih, states_block_length]
    ring

/-- C2: for every engine configuration — in particular each of the four
grid specializations raster (1 orientation code), oriented raster (2),
hex (1) and oriented hex (3) — the number of link states equals the
number of node states squared times the number of orientation codes of
that specialization. -/
theorem num_link_states_formula (cfg : EngineConfig) :
    cfg.num_link_states = cfg.num_node_states ^ 2 * cfg.kind.num_orientations := by
  unfold EngineConfig.num_link_states EngineConfig.node_pair EngineConfig.num_orientations
  rw [link_state_list_length]
  ring

theorem schedule_link_preserves (cfg : EngineConfig) (st : EngineState) (l : ℕ) :
    (schedule_link cfg st l).current_time = st.current_time
    ∧ (schedule_link cfg st l).node_state = st.node_state
    ∧ (schedule_link cfg st l).propid = st.propid
    ∧ (schedule_link cfg st l).prop_data = st.prop_data
    ∧ (schedule_link cfg st l).applied = st.applied := by
  refine ⟨?_, ?_, ?_, ?_, ?_⟩ <;> (unfold schedule_link; split <;> simp)

theorem foldl_schedule_preserves (cfg : EngineConfig) :
    ∀ (ls : List ℕ) (st : EngineState),
      ((ls.foldl (schedule_link cfg) st).current_time = st.current_time
      ∧ (ls.foldl (schedule_link cfg) st).node_state = st.node_state
      ∧ (ls.foldl (schedule_link cfg) st).propid = st.propid
      ∧ (ls.foldl (schedule_link cfg) st).prop_data = st.prop_data
      ∧ (ls.foldl (schedule_link cfg) st).applied = st.applied) := by
  intro ls
  induction ls with
  | nil => intro st; exact ⟨rfl, rfl, rfl, rfl, rfl⟩
  | cons a as ih =>
    intro st
    rw [List.foldl_cons]
    obtain ⟨s1, s2, s3, s4, s5⟩ := schedule_link_preserves cfg st a
    obtain ⟨i1, i2, i3, i4, i5⟩ := ih (schedule_link cfg st a)
    exact ⟨i1.trans s1, i2.trans s2, i3.trans s3, i4.trans s4, i5.trans s5⟩

theorem schedule_link_measure (cfg : EngineConfig) (st : EngineState) (l : ℕ) :
    fuel_measure (schedule_link cfg st l) = fuel_measure st := by
  unfold schedule_link fuel_measure
  split <;> simp_all [PriorityQueue.push]
  omega

theorem foldl_schedule_measure (cfg : EngineConfig) :
    ∀ (ls : List ℕ) (st : EngineState),
      fuel_measure (ls.foldl (schedule_link cfg) st) = fuel_measure st := by
  intro ls
  induction ls with
  | nil => intro st; rfl
  | cons a as ih =>
    intro st
    rw [List.foldl_cons, ih, schedule_link_measure]

theorem do_event_fields (cfg : EngineConfig) (st : EngineState) (ev : Event) (t : ℤ) :
    (do_event cfg st ev t).current_time = t
    ∧ (do_event cfg st ev t).node_state =
        ((st.node_state.set (cfg.links.getD ev.link (0, 0)).1
            (cfg.node_pair.getD ev.xn_to (0, 0, 0)).1).set
          (cfg.links.getD ev.link (0, 0)).2
          (cfg.node_pair.getD ev.xn_to (0, 0, 0)).2.1)
    ∧ (do_event cfg st ev t).propid =
        (if ev.propswap then
          swap_propids st.propid (cfg.links.getD ev.link (0, 0)).1
            (cfg.links.getD ev.link (0, 0)).2
        else st.propid)
    ∧ (do_event cfg st ev t).prop_data = st.prop_data
    ∧ (do_event cfg st ev t).applied = st.applied ++ [(t, ev.link)] := by
  unfold do_event
  refine ⟨?_, ?_, ?_, ?_, ?_⟩
  · rw [(foldl_schedule_preserves cfg _ _).1]
  · rw [(foldl_schedule_preserves cfg _ _).2.1]
  · rw [(foldl_schedule_preserves cfg _ _).2.2.1]
  · rw [(foldl_schedule_preserves cfg _ _).2.2.2.1]
  · rw [(foldl_schedule_preserves cfg _ _).2.2.2.2]

theorem do_event_measure (cfg : EngineConfig) (st : EngineState) (ev : Event) (t : ℤ) :
    fuel_measure (do_event cfg st ev t) = fuel_measure st := by
  unfold do_event
  rw [foldl_schedule_measure]
  rfl

theorem pop_length {τ α : Type} [LinearOrder τ] (pq q2 : PriorityQueue τ α)
    (e : τ × ℕ × α) (h : pq.pop = some (e, q2)) :
    pq.queue.length = q2.queue.length + 1 := by
  unfold PriorityQueue.pop at h
  rcases h2 : extractMin pq.queue with _ | ⟨m, r⟩ <;> rw [h2] at h <;> dsimp only at h
  · cases h
  · obtain ⟨he, hq⟩ : e = m ∧ q2 = ⟨r, pq.counter⟩ := by cases h; exact ⟨rfl, rfl⟩
    rw [hq]
    exact extractMin_length pq.queue m r h2

theorem pop_none_iff {τ α : Type} [LinearOrder τ] (pq : PriorityQueue τ α) :
    pq.pop = none ↔ pq.queue = [] := by
  unfold PriorityQueue.pop
  rcases h2 : extractMin pq.queue with _ | ⟨m, r⟩ <;> dsimp only
  · simp [(extractMin_eq_none pq.queue).mp h2]
  · constructor
    · intro h; cases h
    · intro h
      rw [h] at h2
      cases h2

theorem runFuel_succ_stop (cfg : EngineConfig) (T : ℤ) (f : ℕ) (st : EngineState)
    (h : ¬ st.current_time < T) : runFuel cfg T (f + 1) st = st := by
  simp [runFuel, h]

theorem runFuel_succ_empty (cfg : EngineConfig) (T : ℤ) (f : ℕ) (st : EngineState)
    (hct : st.current_time < T) (hp : st.queue.pop = none) :
    runFuel cfg T (f + 1) st = st := by
  simp [runFuel, hct, hp]

theorem runFuel_succ_beyond (cfg : EngineConfig) (T : ℤ) (f : ℕ) (st : EngineState)
    {t : ℤ} {seq : ℕ} {ev : Event} {q2 : PriorityQueue ℤ Event}
    (hct : st.current_time < T) (hp : st.queue.pop = some ((t, seq, ev), q2)) (hTt : T < t) :
    runFuel cfg T (f + 1) st = { st with current_time := T } := by
  simp [runFuel, hct, hp, hTt]

theorem runFuel_succ_apply (cfg : EngineConfig) (T : ℤ) (f : ℕ) (st : EngineState)
    {t : ℤ} {seq : ℕ} {ev : Event} {q2 : PriorityQueue ℤ Event}
    (hct : st.current_time < T) (hp : st.queue.pop = some ((t, seq, ev), q2))
    (hTt : ¬ T < t) (hval : st.next_update.getD ev.link none = some t) :
    runFuel cfg T (f + 1) st = runFuel cfg T f (do_event cfg { st with queue := q2 } ev t) := by
  simp only [runFuel]
  rw [if_pos hct, hp]
  dsimp only
  rw [if_neg hTt, if_pos hval]

theorem runFuel_succ_stale (cfg : EngineConfig) (T : ℤ) (f : ℕ) (st : EngineState)
    {t : ℤ} {seq : ℕ} {ev : Event} {q2 : PriorityQueue ℤ Event}
    (hct : st.current_time < T) (hp : st.queue.pop = some ((t, seq, ev), q2))
    (hTt : ¬ T < t) (hstale : ¬ st.next_update.getD ev.link none = some t) :
    runFuel cfg T (f + 1) st = runFuel cfg T f { st with queue := q2 } := by
  simp only [runFuel]
  rw [if_pos hct, hp]
  dsimp only
  rw [if_neg hTt, if_neg hstale]

theorem runFuel_noop (cfg : EngineConfig) (T : ℤ) (f : ℕ) (st : EngineState)
    (h : ¬ st.current_time < T) : runFuel cfg T f st = st := by
  cases f with
  | zero => rfl
  | succ f => exact runFuel_succ_stop cfg T f st h

/-- C4: running to a horizon at or before the current time is a no-op —
the resulting engine state (current_time, node states, next_update, the
event queue, the property arrays, the draw stream and the applied-event
log) is equal to the starting one. -/
theorem run_noop_of_until_le (cfg : EngineConfig) (T : ℤ) (st : EngineState)
    (h : T ≤ st.current_time) : run cfg T st = st :=
  runFuel_noop cfg T (fuel_measure st) st (not_lt.mpr h)

/-- C4 witness: running the concrete chain engine to horizon 0 (its
current time) changes nothing. -/
theorem run_noop_of_until_le_witness :
    (0 : ℤ) ≤ stChain.current_time ∧ run cfgChain 0 stChain = stChain :=
  ⟨by decide, run_noop_of_until_le cfgChain 0 stChain (by decide)⟩

theorem runFuel_time_le (cfg : EngineConfig) (T : ℤ) :
    ∀ (f : ℕ) (st : EngineState), st.current_time ≤ T →
      (runFuel cfg T f st).current_time ≤ T := by
  intro f
  induction f with
  | zero => intro st h; exact h
  | succ f ih =>
    intro st h
    by_cases hct : st.current_time < T
    · rcases hp : st.queue.pop with _ | ⟨⟨t, seq, ev⟩, q2⟩
      · rw [runFuel_succ_empty cfg T f st hct hp]; exact h
      · by_cases hTt : T < t
        · rw [runFuel_succ_beyond cfg T f st hct hp hTt]
        · by_cases hval : st.next_update.getD ev.link none = some t
          · rw [runFuel_succ_apply cfg T f st hct hp hTt hval]
            apply ih
            rw [(do_event_fields cfg _ ev t).1]
            exact not_lt.mp hTt
          · rw [runFuel_succ_stale cfg T f st hct hp hTt hval]
            exact ih _ h
    · rw [runFuel_succ_stop cfg T f st hct]; exact h

/-- C3 (amended): for every engine whose current time does not already
exceed the horizon, running to the horizon leaves the current time at or
below it — the loop never applies an event beyond the horizon and never
overshoots.  (The unamended claim fails when the engine is already past
the horizon; see the counterexample.) -/
theorem run_no_overshoot_of_le (cfg : EngineConfig) (T : ℤ) (st : EngineState)
    (h : st.current_time ≤ T) : (run cfg T st).current_time ≤ T :=
  runFuel_time_le cfg T (fuel_measure st) st h

/-- C3 counterexample to the unamended claim: the chain engine with its
only event drawn at time 10, run to horizon 5 (current time becomes 5)
and then run to horizon 1, ends with current time 5 > 1. -/
theorem run_overshoot_counterexample :
    ¬ ((run cfgChain 1 (run cfgChain 5 stBeyond)).current_time ≤ 1) := by decide

/-- C3 witness: the chain engine starts at time 0 ≤ 2, and running it to
horizon 2 leaves the current time at or below 2. -/
theorem run_no_overshoot_of_le_witness :
    stChain.current_time ≤ 2 ∧ (run cfgChain 2 stChain).current_time ≤ 2 :=
  ⟨by decide, run_no_overshoot_of_le cfgChain 2 stChain (by decide)⟩

/-- C5: a popped event whose scheduled time differs from the
`next_update` entry of its link is discarded silently: the run proceeds
exactly as if the event had simply been removed from the queue, so the
discard changes no node state, no property array, and no simulated time,
and it produces no error (the run loop is a total function into engine
states, with no error outcome). -/
theorem stale_event_discard_silent (cfg : EngineConfig) (T t : ℤ) (seq : ℕ) (ev : Event)
    (st : EngineState) (q2 : PriorityQueue ℤ Event)
    (hp : st.queue.pop = some ((t, seq, ev), q2))
    (hct : st.current_time < T) (hTt : ¬ T < t)
    (hstale : ¬ st.next_update.getD ev.link none = some t) :
    run cfg T st = run cfg T { st with queue := q2 } := by
  have hlen := pop_length st.queue q2 (t, seq, ev) hp
  have hm : fuel_measure st = fuel_measure { st with queue := q2 } + 1 := by
    unfold fuel_measure
    dsimp only
    omega
  unfold run
  rw [hm, runFuel_succ_stale cfg T _ st hct hp hTt hstale]

/-- C5 witness: a concrete state whose queued event for link 0 carries
time 1 while `next_update` for link 0 holds 2 — running it is the same
as running it with the stale event dropped. -/
theorem stale_event_discard_silent_witness :
    stStale.queue.pop = some ((1, 0, evChain), ⟨[], 1⟩)
    ∧ stStale.current_time < 3
    ∧ ¬ (3 : ℤ) < 1
    ∧ ¬ stStale.next_update.getD evChain.link none = some 1
    ∧ run cfgChain 3 stStale = run cfgChain 3 { stStale with queue := ⟨[], 1⟩ } :=
  ⟨by decide, by decide, by decide, by decide,
   stale_event_discard_silent cfgChain 3 1 0 evChain stStale ⟨[], 1⟩
     (by decide) (by decide) (by decide) (by decide)⟩

/-- C6: when the popped event is valid (its time matches `next_update` at
its link) and lies within the horizon, the run proceeds by applying it:
the applied state has `current_time` equal to the event time and its
node-state array is the old one with the decoded (state_a, state_b) pair
of the event's target link state written at the link's two endpoint
nodes.  Conversely, running the same engine only to a horizon earlier
than the popped event's time leaves the node states unchanged. -/
theorem valid_event_fires (cfg : EngineConfig) (T t : ℤ) (seq : ℕ) (ev : Event)
    (st : EngineState) (q2 : PriorityQueue ℤ Event)
    (hp : st.queue.pop = some ((t, seq, ev), q2))
    (hct : st.current_time < T) (hTt : ¬ T < t)
    (hval : st.next_update.getD ev.link none = some t) :
    run cfg T st = run cfg T (do_event cfg { st with queue := q2 } ev t)
    ∧ (do_event cfg { st with queue := q2 } ev t).current_time = t
    ∧ (do_event cfg { st with queue := q2 } ev t).node_state =
        ((st.node_state.set (cfg.links.getD ev.link (0, 0)).1
            (cfg.node_pair.getD ev.xn_to (0, 0, 0)).1).set
          (cfg.links.getD ev.link (0, 0)).2
          (cfg.node_pair.getD ev.xn_to (0, 0, 0)).2.1)
    ∧ ∀ T' : ℤ, T' < t → (run cfg T' st).node_state = st.node_state := by
  have hlen := pop_length st.queue q2 (t, seq, ev) hp
  refine ⟨?_, (do_event_fields cfg _ ev t).1, ?_, ?_⟩
  · have hm : fuel_measure st = fuel_measure (do_event cfg { st with queue := q2 } ev t) + 1 := by
      rw [do_event_measure]
      unfold fuel_measure
      dsimp only
      omega
    unfold run
    rw [hm, runFuel_succ_apply cfg T _ st hct hp hTt hval]
  · have h2 := (do_event_fields cfg { st with queue := q2 } ev t).2.1
    simpa using h2
  · intro T' hT'
    by_cases hct' : st.current_time < T'
    · have hm : fuel_measure st = fuel_measure { st with queue := q2 } + 1 := by
        unfold fuel_measure
        dsimp only
        omega
      unfold run
      rw [hm, runFuel_succ_beyond cfg T' _ st hct' hp hT']
    · unfold run
      rw [runFuel_noop cfg T' _ st hct']

/-- C6 witness: the spec's single-transition chain scenario.  The event
drawn at time 1 on link 0 is valid; firing it within horizon 2 sets the
time to 1 and flips exactly the two endpoint nodes, giving node states
(0, 1, 0); running only to an earlier horizon (0 for `stChain`; horizon
5 for `stBeyond`, whose same event is drawn at time 10) leaves the node
states unchanged at (1, 0, 0). -/
theorem valid_event_fires_witness :
    stChain.queue.pop = some ((1, 0, evChain), ⟨[], 1⟩)
    ∧ stChain.current_time < 2
    ∧ ¬ (2 : ℤ) < 1
    ∧ stChain.next_update.getD evChain.link none = some 1
    ∧ run cfgChain 2 stChain
        = run cfgChain 2 (do_event cfgChain { stChain with queue := ⟨[], 1⟩ } evChain 1)
    ∧ (do_event cfgChain { stChain with queue := ⟨[], 1⟩ } evChain 1).current_time = 1
    ∧ (do_event cfgChain { stChain with queue := ⟨[], 1⟩ } evChain 1).node_state = [0, 1, 0]
    ∧ (run cfgChain 2 stChain).node_state = [0, 1, 0]
    ∧ (run cfgChain 0 stChain).node_state = stChain.node_state
    ∧ stBeyond.queue.pop = some ((10, 0, evChain), ⟨[], 1⟩)
    ∧ stBeyond.next_update.getD evChain.link none = some 10
    ∧ (run cfgChain 5 stBeyond).node_state = stBeyond.node_state
    ∧ stBeyond.node_state = [1, 0, 0] := by
  have h := valid_event_fires cfgChain 2 1 0 evChain stChain ⟨[], 1⟩
    (by decide) (by decide) (by decide) (by decide)
  have h2 := valid_event_fires cfgChain 12 10 0 evChain stBeyond ⟨[], 1⟩
    (by decide) (by decide) (by decide) (by decide)
  exact ⟨by decide, by decide, by decide, by decide, h.1, h.2.1, by decide, by decide,
    h.2.2.2 0 (by decide), by decide, by decide, h2.2.2.2 5 (by decide), by decide⟩

/-- C7: construction fails with `ConfigurationError` — and yields no
engine — exactly when some supplied transition has a from or to state
triple that is not a valid combination of node states and orientation
codes, or a rate that is not strictly positive; it succeeds exactly when
every transition passes both checks. -/
theorem construction_validates_transitions (cfg : EngineConfig) (ns0 pid0 : List ℕ)
    (pd0 : List ℤ) (s0 : List (ℤ × ℤ)) :
    ((∃ e, create_engine cfg ns0 pid0 pd0 s0 = Except.ok e) ↔
      ∀ t ∈ cfg.transitions,
        (link_state_index cfg.num_node_states cfg.num_orientations t.from_state).isSome = true
        ∧ (link_state_index cfg.num_node_states cfg.num_orientations t.to_state).isSome = true
        ∧ 0 < t.rate)
    ∧ (create_engine cfg ns0 pid0 pd0 s0 = Except.error ConfigurationError.invalidTransition ↔
      ∃ t ∈ cfg.transitions,
        ¬ ((link_state_index cfg.num_node_states cfg.num_orientations t.from_state).isSome = true
          ∧ (link_state_index cfg.num_node_states cfg.num_orientations t.to_state).isSome = true
          ∧ 0 < t.rate)) := by
  have hval : ∀ t : Transition, valid_transition cfg t = true ↔
      ((link_state_index cfg.num_node_states cfg.num_orientations t.from_state).isSome = true
        ∧ (link_state_index cfg.num_node_states cfg.num_orientations t.to_state).isSome = true
        ∧ 0 < t.rate) := by
    intro t
    unfold valid_transition
    simp [Bool.and_eq_true, and_assoc]
  unfold create_engine
  by_cases h : cfg.transitions.all (valid_transition cfg) = true
  · rw [if_pos h]
    rw [List.all_eq_true] at h
    refine ⟨⟨fun _ t ht => (hval t).mp (h t ht), fun _ => ⟨_, rfl⟩⟩, ?_, ?_⟩
    · intro hcontra; cases hcontra
    · rintro ⟨t, ht, hbad⟩
      exact absurd ((hval t).mp (h t ht)) hbad
  · rw [if_neg h]
    have h2 : ∃ t ∈ cfg.transitions, ¬ (valid_transition cfg t = true) := by
      by_contra hc
      push_neg at hc
      exact h (List.all_eq_true.mpr hc)
    refine ⟨⟨?_, ?_⟩, ?_, ?_⟩
    · rintro ⟨e, he⟩; cases he
    · intro hall
      exfalso
      obtain ⟨t, ht, hbad⟩ := h2
      exact hbad ((hval t).mpr (hall t ht))
    · intro _
      obtain ⟨t, ht, hbad⟩ := h2
      exact ⟨t, ht, fun hc => hbad ((hval t).mpr hc)⟩
    · intro _; rfl

/-- C8: the engine is a deterministic function of its configuration and
its random-draw stream — two identically configured engines fed the same
stream produce, for every horizon, the same sequence of applied events,
the same node-state trajectory, and altogether the same engine state. -/
theorem run_deterministic (cfg1 cfg2 : EngineConfig) (ns1 ns2 pid1 pid2 : List ℕ)
    (pd1 pd2 : List ℤ) (s1 s2 : List (ℤ × ℤ))
    (hcfg : cfg1 = cfg2) (hns : ns1 = ns2) (hpid : pid1 = pid2) (hpd : pd1 = pd2)
    (hs : s1 = s2) :
    ∀ T : ℤ,
      (run cfg1 T (init_state cfg1 ns1 pid1 pd1 s1)).applied
          = (run cfg2 T (init_state cfg2 ns2 pid2 pd2 s2)).applied
      ∧ (run cfg1 T (init_state cfg1 ns1 pid1 pd1 s1)).node_state
          = (run cfg2 T (init_state cfg2 ns2 pid2 pd2 s2)).node_state
      ∧ run cfg1 T (init_state cfg1 ns1 pid1 pd1 s1)
          = run cfg2 T (init_state cfg2 ns2 pid2 pd2 s2) := by
  subst hcfg; subst hns; subst hpid; subst hpd; subst hs
  exact fun T => ⟨rfl, rfl, rfl⟩

/-- C8 witness: two runs of the chain engine from the same configuration
and the same one-draw stream agree at horizon 2. -/
theorem run_deterministic_witness :
    (run cfgChain 2 stChain).applied = (run cfgChain 2 stChain).applied
    ∧ (run cfgChain 2 stChain).node_state = (run cfgChain 2 stChain).node_state
    ∧ run cfgChain 2 stChain = run cfgChain 2 stChain :=
  run_deterministic cfgChain cfgChain [1, 0, 0] [1, 0, 0] [0, 1, 2] [0, 1, 2]
    [50, 0, 0] [50, 0, 0] [(1, 0)] [(1, 0)] rfl rfl rfl rfl rfl 2

/-- C9: applying an event with the property-swap flag exchanges the two
endpoint nodes' property-slot assignments (the `propid` indirection
entries) and leaves the underlying property data untouched — so the
multiset of property values over all slots, and hence their sum, is
conserved. -/
theorem propswap_exchanges_propids (cfg : EngineConfig) (st : EngineState) (ev : Event)
    (t : ℤ) (h : ev.propswap = true) :
    (do_event cfg st ev t).propid =
      swap_propids st.propid (cfg.links.getD ev.link (0, 0)).1 (cfg.links.getD ev.link (0, 0)).2
    ∧ (do_event cfg st ev t).prop_data = st.prop_data
    ∧ ((do_event cfg st ev t).prop_data).sum = st.prop_data.sum := by
  obtain ⟨h1, h2, h3, h4, h5⟩ := do_event_fields cfg st ev t
  refine ⟨?_, h4, by rw [h4]⟩
  rw [h3, if_pos h]

/-- C9 witness: a property-swapping event on link 0 of the chain engine
swaps the slot assignments of nodes 0 and 1 and conserves the property
data and its sum. -/
theorem propswap_exchanges_propids_witness :
    evSwap.propswap = true
    ∧ (do_event cfgChain stChain evSwap 1).propid =
        swap_propids stChain.propid (cfgChain.links.getD evSwap.link (0, 0)).1
          (cfgChain.links.getD evSwap.link (0, 0)).2
    ∧ (do_event cfgChain stChain evSwap 1).prop_data = stChain.prop_data
    ∧ ((do_event cfgChain stChain evSwap 1).prop_data).sum = stChain.prop_data.sum :=
  ⟨rfl, propswap_exchanges_propids cfgChain stChain evSwap 1 rfl⟩

theorem getLast_append_single {β : Type} (l : List β) (a : β) :
    (l ++ [a]).getLast? = some a := by
  induction l with
  | nil => rfl
  | cons x xs ih =>
    rw [List.cons_append]
    cases hxs : xs ++ [a] with
    | nil => exact absurd (congrArg List.length hxs) (by simp)
    | cons y ys =>
      rw [List.getLast?_cons_cons, ← hxs, ih]

theorem runFuel_applied_extension (cfg : EngineConfig) (T : ℤ) :
    ∀ (f : ℕ) (st : EngineState), ∃ suf, (runFuel cfg T f st).applied = st.applied ++ suf := by
  intro f
  induction f with
  | zero => intro st; exact ⟨[], by simp [runFuel]⟩
  | succ f ih =>
    intro st
    by_cases hct : st.current_time < T
    · rcases hp : st.queue.pop with _ | ⟨⟨t, seq, ev⟩, q2⟩
      · rw [runFuel_succ_empty cfg T f st hct hp]; exact ⟨[], by simp⟩
      · by_cases hTt : T < t
        · rw [runFuel_succ_beyond cfg T f st hct hp hTt]; exact ⟨[], by simp⟩
        · by_cases hval : st.next_update.getD ev.link none = some t
          · rw [runFuel_succ_apply cfg T f st hct hp hTt hval]
            obtain ⟨suf, hsuf⟩ := ih (do_event cfg { st with queue := q2 } ev t)
            refine ⟨(t, ev.link) :: suf, ?_⟩
            rw [hsuf, (do_event_fields cfg _ ev t).2.2.2.2]
            simp
          · rw [runFuel_succ_stale cfg T f st hct hp hTt hval]
            exact ih { st with queue := q2 }
    · rw [runFuel_succ_stop cfg T f st hct]; exact ⟨[], by simp⟩

theorem runFuel_drain (cfg : EngineConfig) (T : ℤ) :
    ∀ (f : ℕ) (st : EngineState), (runFuel cfg T f st).queue.queue = [] →
      ((runFuel cfg T f st).applied = st.applied
        ∧ (runFuel cfg T f st).current_time = st.current_time)
      ∨ (∃ t l, (runFuel cfg T f st).applied ≠ st.applied
          ∧ (runFuel cfg T f st).applied.getLast? = some (t, l)
          ∧ (runFuel cfg T f st).current_time = t) := by
  intro f
  induction f with
  | zero => intro st _; exact Or.inl ⟨rfl, rfl⟩
  | succ f ih =>
    intro st hq
    by_cases hct : st.current_time < T
    · rcases hp : st.queue.pop with _ | ⟨⟨t, seq, ev⟩, q2⟩
      · rw [runFuel_succ_empty cfg T f st hct hp] at hq ⊢
        exact Or.inl ⟨rfl, rfl⟩
      · by_cases hTt : T < t
        · exfalso
          rw [runFuel_succ_beyond cfg T f st hct hp hTt] at hq
          have hemp : st.queue.queue = [] := hq
          have : st.queue.pop = none := (pop_none_iff st.queue).mpr hemp
          rw [hp] at this
          cases this
        · by_cases hval : st.next_update.getD ev.link none = some t
          · rw [runFuel_succ_apply cfg T f st hct hp hTt hval] at hq ⊢
            have happ : (do_event cfg { st with queue := q2 } ev t).applied
                = st.applied ++ [(t, ev.link)] := by
              simpa using (do_event_fields cfg { st with queue := q2 } ev t).2.2.2.2
            rcases ih (do_event cfg { st with queue := q2 } ev t) hq with
              ⟨ha, hc⟩ | ⟨t2, l2, hne, hlast, hc⟩
            · refine Or.inr ⟨t, ev.link, ?_, ?_, ?_⟩
              · rw [ha, happ]
                intro hx
                have := congrArg List.length hx
                simp at this
              · rw [ha, happ]
                exact getLast_append_single _ _
              · rw [hc]
                exact (do_event_fields cfg _ ev t).1
            · refine Or.inr ⟨t2, l2, ?_, hlast, hc⟩
              obtain ⟨suf, hsuf⟩ :=
                runFuel_applied_extension cfg T f (do_event cfg { st with queue := q2 } ev t)
              rw [hsuf, happ]
              intro hx
              have := congrArg List.length hx
              simp at this
          · rw [runFuel_succ_stale cfg T f st hct hp hTt hval] at hq ⊢
            exact ih { st with queue := q2 } hq
    · rw [runFuel_succ_stop cfg T f st hct] at hq ⊢
      exact Or.inl ⟨rfl, rfl⟩

/-- C10: when a run drains the event queue before reaching its horizon,
the final current time is the time of the last applied event (and is not
advanced to the horizon): if the resulting queue is empty and this run
applied at least one event, `current_time` equals the time of the last
entry of the applied-event log. -/
theorem drained_run_keeps_last_event_time (cfg : EngineConfig) (T : ℤ) (st : EngineState)
    (hq : (run cfg T st).queue.queue = [])
    (hnew : (run cfg T st).applied ≠ st.applied) :
    ∃ t l, (run cfg T st).applied.getLast? = some (t, l)
      ∧ (run cfg T st).current_time = t := by
  unfold run at hq hnew ⊢
  rcases runFuel_drain cfg T (fuel_measure st) st hq with ⟨ha, _⟩ | ⟨t, l, _, hlast, hc⟩
  · exact absurd ha hnew
  · exact ⟨t, l, hlast, hc⟩

/-- C10 witness: running the chain engine to horizon 2 applies its single
event at time 1 and drains the queue; the final current time is 1, the
time of the last applied event, not 2. -/
theorem drained_run_keeps_last_event_time_witness :
    (run cfgChain 2 stChain).queue.queue = []
    ∧ (run cfgChain 2 stChain).applied ≠ stChain.applied
    ∧ (run cfgChain 2 stChain).current_time = 1
    ∧ ∃ t l, (run cfgChain 2 stChain).applied.getLast? = some (t, l)
        ∧ (run cfgChain 2 stChain).current_time = t :=
  ⟨by decide, by decide, by decide,
   drained_run_keeps_last_event_time cfgChain 2 stChain (by decide) (by decide)⟩

end CellLabCTS
